import Mathlib

/-!
Verification of `download_civitai_json.py`.

The development shallowly embeds the script's pure core and its
orchestration logic:

* `parse_air` / `matchAIR` — the AIR-URN classifier built on `_AIR_URN_RE`.
  The regular expression
  `^urn:air:([a-z0-9]+):([a-z0-9]+):([a-z0-9]+):(\d+)(?:@(\d+))?(?:\.([A-Za-z0-9]+))?$`
  is embedded as a deterministic maximal-munch parser.  This is faithful:
  every repetition class in the pattern excludes the delimiter that follows
  it (`:`-separated segments exclude `:`, `\d+` cannot cross `@` or `.`,
  and the final `[A-Za-z0-9]+` runs to the anchor), so the backtracking
  regex engine and the committed parser accept exactly the same strings
  with the same captures.
* `dedup` — the per-asset URL deduplication (`seen` set comprehension).
* `uniquify_path` — collision-free filename resolution, modelled over a
  finite list of existing filesystem entries; the `while` loop that scans
  `stem__2`, `stem__3`, … is rendered as the least fresh index (`Nat.find`),
  which is exactly what the loop returns.
* `processUrl` / `processItem` / `processItems` / `runMain` — the download
  orchestrator.  Network effects are an environment of deterministic
  oracles (`Env`); a raised exception is an `Except.error` value.
* `saveEvents` / `applyEvents` — the persistence step (`with_suffix(".tmp")`
  plus `Path.replace`), modelled as an event trace over a file-state map so
  that crash prefixes can be examined.
-/

/-! ### Python string helpers -/

/-- Whitespace stripped by Python's `str.strip()` (ASCII part):
space, tab, newline, carriage return, vertical tab, form feed. -/
def isPySpace (c : Char) : Bool :=
  c.toNat = 32 || c.toNat = 9 || c.toNat = 10 || c.toNat = 13 ||
    c.toNat = 11 || c.toNat = 12

/-- `str.strip()` on the character list: drop whitespace from both ends. -/
def pyStripList (cs : List Char) : List Char :=
  ((cs.dropWhile isPySpace).reverse.dropWhile isPySpace).reverse

/-- `str.strip()`. -/
def pyStrip (s : String) : String := ⟨pyStripList s.data⟩

/-- `str.lower()` (ASCII: maps each character through `Char.toLower`). -/
def pyLower (s : String) : String := ⟨s.data.map Char.toLower⟩

/-! ### Character classes of `_AIR_URN_RE` -/

/-- The class `[a-z0-9]`. -/
def isLowerAlnumChar (c : Char) : Bool :=
  (97 ≤ c.toNat && c.toNat ≤ 122) || (48 ≤ c.toNat && c.toNat ≤ 57)

/-- The class `\d` (a decimal digit). -/
def isDigitChar (c : Char) : Bool := 48 ≤ c.toNat && c.toNat ≤ 57

/-- The class `[A-Z]`; used only in statements about case-sensitivity. -/
def isUpperChar (c : Char) : Bool := 65 ≤ c.toNat && c.toNat ≤ 90

/-- The class `[A-Za-z0-9]` (the `format` segment). -/
def isAlnumChar (c : Char) : Bool := isUpperChar c || isLowerAlnumChar c

/-! ### The AIR URN matcher (`_AIR_URN_RE.match`) -/

/-- Consume an exact literal from the front of the input. -/
def dropLiteral : List Char → List Char → Option (List Char)
  | [], cs => some cs
  | _ :: _, [] => none
  | l :: ls, c :: cs => if c = l then dropLiteral ls cs else none

/-- Consume a nonempty maximal run of characters in class `p`
(one `(?P<..>class+)` group). -/
def takeSeg (p : Char → Bool) (cs : List Char) : Option (List Char × List Char) :=
  let run := cs.takeWhile p
  if run = [] then none else some (run, cs.dropWhile p)

/-- Consume an optional group `(?:<mark><class>+)?`: if the marker character
is present it commits to a nonempty run of `p` (the regex cannot succeed with
the marker left over, so committing is equivalent to backtracking). -/
def matchOpt (mark : Char) (p : Char → Bool) :
    List Char → Option (Option (List Char) × List Char)
  | [] => some (none, [])
  | c :: rest =>
    if c = mark then
      match takeSeg p rest with
      | none => none
      | some (run, rest2) => some (some run, rest2)
    else some (none, c :: rest)

/-- The named captures of `_AIR_URN_RE`. -/
structure AirMatch where
  ecosystem : String
  type : String
  source : String
  id : String
  version : Option String
  format : Option String
deriving DecidableEq

/-- `_AIR_URN_RE.match` on a character list:
`^urn:air:<eco>:<type>:<source>:<id>(@<version>)?(.<format>)?$`. -/
def matchAirList (cs : List Char) : Option AirMatch :=
  match dropLiteral "urn:air:".data cs with
  | none => none
  | some cs1 =>
    match takeSeg isLowerAlnumChar cs1 with
    | none => none
    | some (eco, cs2) =>
      match dropLiteral [':'] cs2 with
      | none => none
      | some cs3 =>
        match takeSeg isLowerAlnumChar cs3 with
        | none => none
        | some (ty, cs4) =>
          match dropLiteral [':'] cs4 with
          | none => none
          | some cs5 =>
            match takeSeg isLowerAlnumChar cs5 with
            | none => none
            | some (src, cs6) =>
              match dropLiteral [':'] cs6 with
              | none => none
              | some cs7 =>
                match takeSeg isDigitChar cs7 with
                | none => none
                | some (idd, cs8) =>
                  match matchOpt '@' isDigitChar cs8 with
                  | none => none
                  | some (ver, cs9) =>
                    match matchOpt '.' isAlnumChar cs9 with
                    | none => none
                    | some (fmt, cs10) =>
                      if cs10 = [] then
                        some ⟨⟨eco⟩, ⟨ty⟩, ⟨src⟩, ⟨idd⟩,
                          ver.map (fun l => ⟨l⟩), fmt.map (fun l => ⟨l⟩)⟩
                      else none

/-- `_AIR_URN_RE.match` on a string (anchored at both ends). -/
def matchAIR (s : String) : Option AirMatch := matchAirList s.data

/-! ### `parse_air` -/

/-- A Python value found in the metadata mapping: a string, a list of
strings (the `downloadlinks` field), or anything else. -/
inductive PyVal
  | str (s : String)
  | strList (l : List String)
  | other
deriving DecidableEq

/-- `parse_air(meta_obj)`: read `copiedMessage`; if it is missing, not a
string, or blank after stripping, return `none`; otherwise match the
stripped string against `_AIR_URN_RE` and return the lower-cased
`(type, ecosystem)` captures, or `none` on a failed match (after a
non-fatal warning). -/
def parse_air (meta_obj : List (String × PyVal)) : Option (String × String) :=
  match meta_obj.lookup "copiedMessage" with
  | some (PyVal.str cm) =>
    if pyStrip cm = "" then none
    else
      match matchAIR (pyStrip cm) with
      | some m => some (pyLower m.type, pyLower m.ecosystem)
      | none => none
  | _ => none

/-! ### Path splitting (`pathlib`) -/

/-- Split a path at its last `/` into `(parent, name)`; a path without a
separator has parent `"."` (as in `pathlib`). -/
def splitDir (p : String) : String × String :=
  let rev := p.data.reverse
  match rev.dropWhile (fun c => !decide (c = '/')) with
  | [] => (".", p)
  | _ :: parentRev => (⟨parentRev.reverse⟩, ⟨(rev.takeWhile (fun c => !decide (c = '/'))).reverse⟩)

/-- Join a parent directory and a file name (`parent / name`); a parent of
`"."` disappears, as in `pathlib`. -/
def joinPath (dir name : String) : String :=
  if dir = "." then name else dir ++ "/" ++ name

/-- Split a file name into `(stem, suffix)` by `pathlib`'s rule: the suffix
starts at the last dot provided that dot is neither the first nor the last
character of the name; otherwise the suffix is empty. -/
def splitExt (name : String) : String × String :=
  let rev := name.data.reverse
  let extRev := rev.takeWhile (fun c => !decide (c = '.'))
  match rev.dropWhile (fun c => !decide (c = '.')) with
  | [] => (name, "")
  | _ :: stemRev =>
    if stemRev = [] ∨ extRev = [] then (name, "")
    else (⟨stemRev.reverse⟩, ⟨'.' :: extRev.reverse⟩)

/-- The `i`-th collision candidate of `uniquify_path`:
`parent / f"{stem}__{i}{suffix}"`. -/
def candName (p : String) (i : Nat) : String :=
  joinPath (splitDir p).1
    ((splitExt (splitDir p).2).1 ++ "__" ++ Nat.repr i ++ (splitExt (splitDir p).2).2)

/-- `Path.with_suffix`: replace the name's extension (the parent is kept). -/
def with_suffix (p : String) (newSuffix : String) : String :=
  joinPath (splitDir p).1 ((splitExt (splitDir p).2).1 ++ newSuffix)

/-! Support facts needed to define `uniquify_path` (the `while` loop finds a
fresh candidate because decimal representations get arbitrarily long). -/

theorem toDigitsCore_length_ge (b : Nat) :
    ∀ (f n : Nat) (ds : List Char), ds.length ≤ (Nat.toDigitsCore b f n ds).length := by
  intro f
  induction f with
  | zero => intro n ds; simp [Nat.toDigitsCore]
  | succ f ih =>
    intro n ds
    simp only [Nat.toDigitsCore]
    split
    · simp
    · exact le_trans (by simp) (ih (n / b) (Nat.digitChar (n % b) :: ds))

theorem toDigitsCore_length_lb :
    ∀ (k f n : Nat) (ds : List Char), 10 ^ k ≤ n → k < f →
      k + 1 + ds.length ≤ (Nat.toDigitsCore 10 f n ds).length := by
  intro k
  induction k with
  | zero =>
    intro f n ds hn hf
    match f, hf with
    | f + 1, _ =>
      simp only [Nat.toDigitsCore]
      split
      · simp only [List.length_cons]; omega
      · have := toDigitsCore_length_ge 10 f (n / 10) (Nat.digitChar (n % 10) :: ds)
        simp only [List.length_cons] at this
        omega
  | succ k ih =>
    intro f n ds hn hf
    match f, hf with
    | f + 1, hf =>
      have hdiv : 10 ^ k ≤ n / 10 := by
        rw [Nat.le_div_iff_mul_le (by norm_num)]
        calc 10 ^ k * 10 = 10 ^ (k + 1) := by ring
        _ ≤ n := hn
      have hne : ¬ n / 10 = 0 := by
        intro h0
        rw [h0] at hdiv
        have : 0 < 10 ^ k := pow_pos (by norm_num) k
        omega
      simp only [Nat.toDigitsCore, hne, if_false]
      have := ih f (n / 10) (Nat.digitChar (n % 10) :: ds) hdiv (Nat.lt_of_succ_lt_succ hf)
      simp only [List.length_cons] at this
      omega

theorem repr_length_lb (k n : Nat) (h : 10 ^ k ≤ n) : k + 1 ≤ (Nat.repr n).length := by
  have hk : k < n + 1 := by
    have : k < 10 ^ k := Nat.lt_pow_self (by norm_num) k
    omega
  have := toDigitsCore_length_lb k (n + 1) n [] h hk
  simpa [Nat.repr, Nat.toDigits, String.length, List.asString] using this

theorem repr_length_pos (n : Nat) : 1 ≤ (Nat.repr n).length := by
  match n with
  | 0 => decide
  | n + 1 => simpa using repr_length_lb 0 (n + 1) (by omega)

/-- Longest length among a list of strings. -/
def maxLen (fs : List String) : Nat := fs.foldr (fun s m => max s.length m) 0

theorem le_maxLen {s : String} {fs : List String} (h : s ∈ fs) : s.length ≤ maxLen fs := by
  induction fs with
  | nil => cases h
  | cons t fs ih =>
    rcases List.mem_cons.mp h with rfl | h
    · simp [maxLen]
    · exact le_trans (ih h) (by simp [maxLen])

theorem splitExt_append (nm : String) : (splitExt nm).1 ++ (splitExt nm).2 = nm := by
  have hsplit : (nm.data.reverse.takeWhile (fun c => !decide (c = '.'))) ++
      (nm.data.reverse.dropWhile (fun c => !decide (c = '.'))) = nm.data.reverse :=
    List.takeWhile_append_dropWhile _ _
  rw [splitExt]
  cases hdrop : nm.data.reverse.dropWhile (fun c => !decide (c = '.')) with
  | nil =>
    simp only [hdrop]
    apply String.ext
    simp [String.data_append]
  | cons d stemRev =>
    simp only [hdrop]
    split
    · apply String.ext
      simp [String.data_append]
    · have hd : d = '.' := by
        have := List.head_dropWhile_not (fun c => !decide (c = '.'))
          nm.data.reverse
        rw [hdrop] at this
        simpa using this (by simp)
      apply String.ext
      simp only [String.data_append]
      rw [hdrop, hd] at hsplit
      have h2 := congrArg List.reverse hsplit
      simp only [List.reverse_append, List.reverse_cons, List.reverse_reverse] at h2
      simpa [List.append_assoc] using h2

theorem splitDir_length (p : String) :
    splitDir p = (".", p) ∨
      p.length = (splitDir p).1.length + 1 + (splitDir p).2.length := by
  have hsplit : (p.data.reverse.takeWhile (fun c => !decide (c = '/'))) ++
      (p.data.reverse.dropWhile (fun c => !decide (c = '/'))) = p.data.reverse :=
    List.takeWhile_append_dropWhile _ _
  cases hdrop : p.data.reverse.dropWhile (fun c => !decide (c = '/')) with
  | nil => left; simp [splitDir, hdrop]
  | cons d parentRev =>
    right
    rw [hdrop] at hsplit
    have hlen : p.data.length =
        (p.data.reverse.takeWhile (fun c => !decide (c = '/'))).length + (1 + parentRev.length) := by
      have := congrArg List.length hsplit
      simpa [Nat.add_comm, Nat.add_assoc] using this.symm
    simp only [splitDir, hdrop]
    simp only [String.length]
    simp only [List.length_reverse]
    omega

theorem joinPath_length (d n : String) :
    (joinPath d n).length = (if d = "." then n.length else d.length + 1 + n.length) := by
  unfold joinPath
  split
  · rfl
  · rw [String.length_append, String.length_append]
    have h1 : ("/" : String).length = 1 := rfl
    omega

theorem string_length_append (a b : String) : (a ++ b).length = a.length + b.length :=
  String.length_append a b

theorem candName_length (p : String) (i : Nat) :
    (candName p i).length = p.length + 2 + (Nat.repr i).length ∨
      (candName p i).length = p.length + (Nat.repr i).length := by
  have hext := congrArg String.length (splitExt_append (splitDir p).2)
  rw [string_length_append] at hext
  have h2 : ("__" : String).length = 2 := rfl
  unfold candName
  rw [joinPath_length]
  rcases splitDir_length p with hdot | hlen
  · left
    have hd1 : (splitDir p).1 = "." := by rw [hdot]
    have hd2len : (splitDir p).2.length = p.length := by rw [hdot]
    rw [hd1, if_pos rfl]
    simp only [string_length_append]
    omega
  · split
    · right
      rename_i hdotdir
      have hd1 : (splitDir p).1.length = 1 := by rw [hdotdir]; rfl
      simp only [string_length_append]
      omega
    · left
      simp only [string_length_append]
      omega

theorem candName_length_ge (p : String) (i : Nat) :
    (Nat.repr i).length ≤ (candName p i).length := by
  rcases candName_length p i with h | h <;> omega

theorem candName_length_gt (p : String) (i : Nat) : p.length < (candName p i).length := by
  have := repr_length_pos i
  rcases candName_length p i with h | h <;> omega

theorem candName_ne_self (p : String) (i : Nat) : candName p i ≠ p := by
  intro h
  have := candName_length_gt p i
  rw [h] at this
  omega

/-- The collision scan always finds a fresh candidate: a candidate whose
index is at least `10 ^ maxLen fs` is longer than every entry of `fs`. -/
theorem cand_exists (fs : List String) (p : String) : ∃ j, candName p (2 + j) ∉ fs := by
  refine ⟨10 ^ maxLen fs, fun hmem => ?_⟩
  have h1 : maxLen fs + 1 ≤ (Nat.repr (2 + 10 ^ maxLen fs)).length :=
    repr_length_lb _ _ (by omega)
  have h2 := candName_length_ge p (2 + 10 ^ maxLen fs)
  have h3 := le_maxLen hmem
  omega

/-- `uniquify_path`: return `p` when it does not exist; otherwise scan
`stem__2`, `stem__3`, … (counter starting at 2) and return the first
candidate that does not exist.  The filesystem is the finite list `fs` of
existing entries; the `while` loop returns the least fresh index, here
`2 + Nat.find _`. -/
def uniquify_path (fs : List String) (p : String) : String :=
  if p ∈ fs then candName p (2 + Nat.find (cand_exists fs p)) else p

/-! ### URL deduplication -/

/-- The list comprehension `[u for u in links if not (u in seen or seen.add(u))]`
with its accumulated `seen` set. -/
def dedupAux (seen : List String) : List String → List String
  | [] => []
  | u :: rest => if u ∈ seen then dedupAux seen rest else u :: dedupAux (u :: seen) rest

/-- Deduplicate the per-asset link list (starting from an empty `seen` set). -/
def dedup (urls : List String) : List String := dedupAux [] urls

/-- Specification-side deduplication, written exactly from the spec's words:
keep the first occurrence of each exact string and drop every later repeat,
preserving the order of the survivors.  `dedup` is proved to refine this. -/
def dedupSpec : List String → List String
  | [] => []
  | u :: rest => u :: dedupSpec (rest.filter (fun v => !decide (v = u)))
termination_by l => l.length
decreasing_by
  simp only [List.length_cons]
  exact Nat.lt_succ_of_le (List.length_filter_le _ _)

/-! ### The download orchestrator -/

/-- One entry appended to an item's `downloads` list. -/
structure DownloadRecord where
  url : String
  relative_path : String
  size_bytes : Nat
deriving DecidableEq

/-- One element of the document's `items` list: its `meta` mapping and its
(possibly missing, here defaulted-empty) `downloads` list. -/
structure Item where
  meta : List (String × PyVal)
  downloads : List DownloadRecord
deriving DecidableEq

/-- The effect environment: deterministic oracles for the outcome of
`probe_filename` and `download` on each URL (an exception becomes
`Except.error`), and for `mkdir` success and `os.access(…, W_OK)` per
directory. -/
structure Env where
  probeFilename : String → Except String String
  downloadResult : String → Except String Nat
  mkdirOk : String → Bool
  writable : String → Bool

/-- The mutable run state: the set of existing filesystem paths (consulted
and extended by downloads) and the `changed` flag. -/
structure RunState where
  fs : List String
  changed : Bool
deriving DecidableEq

/-- `ensure_writable_dir`: `mkdir(parents=True, exist_ok=True)` (an `OSError`
propagates) then `die` on a missing write permission.  Both failure modes
abort: the function is fatal, there is no local handler anywhere it is
called. -/
def ensure_writable_dir (env : Env) (path : String) : Except String Unit :=
  if env.mkdirOk path then
    if env.writable path then Except.ok ()
    else Except.error ("No write permission: " ++ path)
  else Except.error ("mkdir failed: " ++ path)

/-- `meta_obj.get("downloadlinks") or []`. -/
def getLinks (meta_obj : List (String × PyVal)) : List String :=
  match meta_obj.lookup "downloadlinks" with
  | some (PyVal.strList l) => l
  | _ => []

/-- `base = root / air[0] if air else root / "default"`. -/
def baseDir (root : String) (air : Option (String × String)) : String :=
  match air with
  | some (ty, _) => root ++ "/" ++ ty
  | none => root ++ "/default"

/-- The body of the per-URL loop: probe the filename (a failure is warned
and skipped), build the target (`<eco>_<name>` prefix when classified),
uniquify it, download (a failure is warned and skipped), and on success
return the new record and the state with the file present and `changed`
set. -/
def processUrl (env : Env) (air : Option (String × String)) (base : String)
    (st : RunState) (url : String) : List DownloadRecord × RunState :=
  match env.probeFilename url with
  | Except.error _ => ([], st)
  | Except.ok name =>
    let target := uniquify_path st.fs
      (match air with
       | some (_, eco) => base ++ "/" ++ (eco ++ "_" ++ name)
       | none => base ++ "/" ++ name)
    match env.downloadResult url with
    | Except.error _ => ([], st)
    | Except.ok size => ([⟨url, target, size⟩], ⟨target :: st.fs, true⟩)

/-- The per-URL loop over an item's deduplicated links, collecting the
records appended to the item's `downloads`. -/
def processUrls (env : Env) (air : Option (String × String)) (base : String) :
    List String → RunState → List DownloadRecord × RunState
  | [], st => ([], st)
  | u :: rest, st =>
    let r1 := processUrl env air base st u
    let r2 := processUrls env air base rest r1.2
    (r1.1 ++ r2.1, r2.2)

/-- The per-item body of the main loop: extract and deduplicate links,
classify, resolve and create the base directory (fatal on failure — the
call is not inside any `try`), then run the per-URL loop and append the
produced records to the item's `downloads`. -/
def processItem (env : Env) (root : String) (st : RunState) (item : Item) :
    Except String (Item × RunState) :=
  let links := dedup (getLinks item.meta)
  let air := parse_air item.meta
  let base := baseDir root air
  match ensure_writable_dir env base with
  | Except.error e => Except.error e
  | Except.ok _ =>
    let r := processUrls env air base links st
    Except.ok ({ item with downloads := item.downloads ++ r.1 }, r.2)

/-- The main loop over `meta["items"]`; an error escaping `processItem`
aborts the whole run. -/
def processItems (env : Env) (root : String) :
    List Item → RunState → Except String (List Item × RunState)
  | [], st => Except.ok ([], st)
  | it :: rest, st =>
    match processItem env root st it with
    | Except.error e => Except.error e
    | Except.ok (it2, st2) =>
      match processItems env root rest st2 with
      | Except.error e => Except.error e
      | Except.ok (rest2, st3) => Except.ok (it2 :: rest2, st3)

/-! ### Persistence (`saveIfChanged`) -/

/-- What one path holds on disk: nothing, a file in the middle of being
written, or a fully serialized document. -/
inductive FileState
  | absent
  | partialWrite
  | content (doc : List Item)
deriving DecidableEq

/-- The observable filesystem steps of the save: opening-and-writing the
temporary file (a crash inside leaves a partial file), the write
completing, and `Path.replace` (an atomic rename). -/
inductive SaveEvent
  | writeStart (path : String)
  | writeEnd (path : String) (doc : List Item)
  | rename (src : String) (dst : String)
deriving DecidableEq

/-- Apply one save event to the disk map. -/
def applyEvent (disk : String → FileState) : SaveEvent → String → FileState
  | SaveEvent.writeStart p, q => if q = p then FileState.partialWrite else disk q
  | SaveEvent.writeEnd p d, q => if q = p then FileState.content d else disk q
  | SaveEvent.rename src dst, q =>
    if q = dst then disk src else if q = src then FileState.absent else disk q

/-- Apply a sequence of save events. -/
def applyEvents (disk : String → FileState) (evs : List SaveEvent) : String → FileState :=
  evs.foldl applyEvent disk

/-- The save step at the end of `main`: when `changed` is set, write the
document to `p.with_suffix(".tmp")` and rename that over the original;
otherwise do nothing. -/
def saveEvents (metaPath : String) (doc : List Item) (changed : Bool) : List SaveEvent :=
  if changed then
    [SaveEvent.writeStart (with_suffix metaPath ".tmp"),
     SaveEvent.writeEnd (with_suffix metaPath ".tmp") doc,
     SaveEvent.rename (with_suffix metaPath ".tmp") metaPath]
  else []

/-- `main` after startup (credential lookup and JSON loading are outside
the model): ensure the root directory is writable (fatal otherwise),
process every item starting from an unchanged state over the initial
filesystem `fs0`, and emit the save events. -/
def runMain (env : Env) (metaPath root : String) (items : List Item) (fs0 : List String) :
    Except String (List Item × RunState × List SaveEvent) :=
  match ensure_writable_dir env root with
  | Except.error e => Except.error e
  | Except.ok _ =>
    match processItems env root items ⟨fs0, false⟩ with
    | Except.error e => Except.error e
    | Except.ok (items2, st) => Except.ok (items2, st, saveEvents metaPath items2 st.changed)

/-- Total number of download records across the document. -/
def totalDownloads (items : List Item) : Nat :=
  (items.map (fun it => it.downloads.length)).sum

/-- Both network steps of a URL succeed (the condition under which the
per-URL loop appends a record). -/
def urlOk (env : Env) (u : String) : Bool :=
  (env.probeFilename u).isOk && (env.downloadResult u).isOk

/-! ### Soundness of the URN matcher's pieces -/

theorem dropLiteral_sound :
    ∀ (lit cs r : List Char), dropLiteral lit cs = some r → cs = lit ++ r := by
  intro lit
  induction lit with
  | nil => intro cs r h; simpa [dropLiteral] using h
  | cons l ls ih =>
    intro cs r h
    cases cs with
    | nil => simp [dropLiteral] at h
    | cons c cs' =>
      rw [dropLiteral] at h
      split at h
      · rename_i hc
        rw [hc, List.cons_append]
        exact congrArg _ (ih cs' r h)
      · exact Option.noConfusion h

theorem takeSeg_sound {p : Char → Bool} {cs run rest : List Char}
    (h : takeSeg p cs = some (run, rest)) :
    cs = run ++ rest ∧ run ≠ [] ∧ ∀ c ∈ run, p c = true := by
  rw [takeSeg] at h
  split at h
  · exact Option.noConfusion h
  · rename_i hne
    obtain ⟨h1, h2⟩ := Prod.mk.injEq .. ▸ Option.some.injEq .. ▸ h
    subst h1
    subst h2
    exact ⟨(List.takeWhile_append_dropWhile _ _).symm, hne,
      fun c hc => List.mem_takeWhile_imp hc⟩

theorem matchOpt_sound {mark : Char} {p : Char → Bool} {cs rest : List Char}
    {o : Option (List Char)} (h : matchOpt mark p cs = some (o, rest)) :
    (o = none ∧ rest = cs) ∨
      (∃ run, o = some run ∧ run ≠ [] ∧ (∀ c ∈ run, p c = true) ∧
        cs = mark :: (run ++ rest)) := by
  cases cs with
  | nil =>
    left
    obtain ⟨h1, h2⟩ := Prod.mk.injEq .. ▸ Option.some.injEq .. ▸ h
    exact ⟨h1.symm, h2.symm⟩
  | cons c cs' =>
    rw [matchOpt] at h
    split at h
    · rename_i hc
      split at h
      · exact Option.noConfusion h
      · rename_i run rest2 hseg
        obtain ⟨h1, h2⟩ := Prod.mk.injEq .. ▸ Option.some.injEq .. ▸ h
        obtain ⟨hcs, hne, hall⟩ := takeSeg_sound hseg
        right
        exact ⟨run, h1.symm, hne, hall, by rw [hc, hcs, h2]⟩
    · left
      obtain ⟨h1, h2⟩ := Prod.mk.injEq .. ▸ Option.some.injEq .. ▸ h
      exact ⟨h1.symm, h2.symm⟩

/-- The optional `@version` / `.format` tail as the characters it consumed. -/
def optPart (mark : Char) : Option String → List Char
  | some v => mark :: v.data
  | none => []

theorem matchAirList_sound {cs : List Char} {m : AirMatch} (h : matchAirList cs = some m) :
    cs = "urn:air:".data ++ m.ecosystem.data ++ ':' :: m.type.data ++ ':' :: m.source.data
        ++ ':' :: m.id.data ++ optPart '@' m.version ++ optPart '.' m.format
    ∧ (m.ecosystem.data ≠ [] ∧ ∀ c ∈ m.ecosystem.data, isLowerAlnumChar c = true)
    ∧ (m.type.data ≠ [] ∧ ∀ c ∈ m.type.data, isLowerAlnumChar c = true)
    ∧ (m.source.data ≠ [] ∧ ∀ c ∈ m.source.data, isLowerAlnumChar c = true)
    ∧ (m.id.data ≠ [] ∧ ∀ c ∈ m.id.data, isDigitChar c = true)
    ∧ (∀ v, m.version = some v → v.data ≠ [] ∧ ∀ c ∈ v.data, isDigitChar c = true)
    ∧ (∀ f, m.format = some f → f.data ≠ [] ∧ ∀ c ∈ f.data, isAlnumChar c = true) := by
  rw [matchAirList] at h
  split at h
  · exact Option.noConfusion h
  rename_i cs1 hlit
  split at h
  · exact Option.noConfusion h
  rename_i eco cs2 heco
  split at h
  · exact Option.noConfusion h
  rename_i cs3 hc1
  split at h
  · exact Option.noConfusion h
  rename_i ty cs4 hty
  split at h
  · exact Option.noConfusion h
  rename_i cs5 hc2
  split at h
  · exact Option.noConfusion h
  rename_i src cs6 hsrc
  split at h
  · exact Option.noConfusion h
  rename_i cs7 hc3
  split at h
  · exact Option.noConfusion h
  rename_i idd cs8 hid
  split at h
  · exact Option.noConfusion h
  rename_i ver cs9 hver
  split at h
  · exact Option.noConfusion h
  rename_i fmt cs10 hfmt
  split at h
  case isFalse => exact Option.noConfusion h
  rename_i hend
  obtain rfl : (⟨⟨eco⟩, ⟨ty⟩, ⟨src⟩, ⟨idd⟩, ver.map (fun l => ⟨l⟩),
      fmt.map (fun l => ⟨l⟩)⟩ : AirMatch) = m := Option.some.injEq .. ▸ h
  obtain ⟨hcs1, hecone, hecoall⟩ := takeSeg_sound heco
  obtain ⟨hcs3, htyne, htyall⟩ := takeSeg_sound hty
  obtain ⟨hcs5, hsrcne, hsrcall⟩ := takeSeg_sound hsrc
  obtain ⟨hcs7, hidne, hidall⟩ := takeSeg_sound hid
  have hlit' := dropLiteral_sound _ _ _ hlit
  have hc1' := dropLiteral_sound _ _ _ hc1
  have hc2' := dropLiteral_sound _ _ _ hc2
  have hc3' := dropLiteral_sound _ _ _ hc3
  refine ⟨?_, ⟨hecone, hecoall⟩, ⟨htyne, htyall⟩, ⟨hsrcne, hsrcall⟩, ⟨hidne, hidall⟩, ?_, ?_⟩
  · have hverpart : cs8 = optPart '@' (ver.map (fun l => (⟨l⟩ : String))) ++ cs9 := by
      rcases matchOpt_sound hver with ⟨rfl, rfl⟩ | ⟨run, rfl, _, _, hrun⟩
      · simp [optPart]
      · simp [optPart, hrun]
    have hfmtpart : cs9 = optPart '.' (fmt.map (fun l => (⟨l⟩ : String))) ++ cs10 := by
      rcases matchOpt_sound hfmt with ⟨rfl, rfl⟩ | ⟨run, rfl, _, _, hrun⟩
      · simp [optPart]
      · simp [optPart, hrun]
    subst hend
    rw [hlit', hcs1, hc1', hcs3, hc2', hcs5, hc3', hcs7, hverpart, hfmtpart]
    simp [List.append_assoc]
  · rintro v hv
    rcases matchOpt_sound hver with ⟨hnone, _⟩ | ⟨run, hsome, hne, hall, _⟩
    · rw [hnone] at hv; exact Option.noConfusion (Option.map_none' _ ▸ hv)
    · rw [hsome] at hv
      obtain rfl : (⟨run⟩ : String) = v := Option.some.injEq .. ▸ (Option.map_some' .. ▸ hv)
      exact ⟨by simpa using hne, hall⟩
  · rintro f hf
    rcases matchOpt_sound hfmt with ⟨hnone, _⟩ | ⟨run, hsome, hne, hall, _⟩
    · rw [hnone] at hf; exact Option.noConfusion (Option.map_none' _ ▸ hf)
    · rw [hsome] at hf
      obtain rfl : (⟨run⟩ : String) = f := Option.some.injEq .. ▸ (Option.map_some' .. ▸ hf)
      exact ⟨by simpa using hne, hall⟩

/-! ### Whitespace facts -/

theorem not_space_of_ge {c : Char} (h : 48 ≤ c.toNat) : isPySpace c = false := by
  simp only [isPySpace]
  simp only [Bool.or_eq_false_iff, decide_eq_false_iff_not]
  omega

theorem lowerAlnum_ge {c : Char} (h : isLowerAlnumChar c = true) : 48 ≤ c.toNat := by
  simp only [isLowerAlnumChar, Bool.or_eq_true, Bool.and_eq_true, decide_eq_true_eq] at h
  omega

theorem digit_ge {c : Char} (h : isDigitChar c = true) : 48 ≤ c.toNat := by
  simp only [isDigitChar, Bool.and_eq_true, decide_eq_true_eq] at h
  omega

theorem alnum_ge {c : Char} (h : isAlnumChar c = true) : 48 ≤ c.toNat := by
  simp only [isAlnumChar, isUpperChar, isLowerAlnumChar, Bool.or_eq_true,
    Bool.and_eq_true, decide_eq_true_eq] at h
  omega

theorem reverse_head_mem {l : List Char} (h : l ≠ []) :
    ∃ a t, l.reverse = a :: t ∧ a ∈ l := by
  have hr : l.reverse ≠ [] := by simpa using h
  obtain ⟨a, t, ht⟩ := List.exists_cons_of_ne_nil hr
  refine ⟨a, t, ht, ?_⟩
  have : a ∈ l.reverse := ht ▸ List.mem_cons_self a t
  simpa using this

theorem dropWhile_append_all {p : Char → Bool} {l1 l2 : List Char}
    (h : ∀ c ∈ l1, p c = true) : (l1 ++ l2).dropWhile p = l2.dropWhile p := by
  induction l1 with
  | nil => simp
  | cons a t ih =>
    rw [List.cons_append, List.dropWhile_cons, if_pos (h a (List.mem_cons_self a t))]
    exact ih (fun c hc => h c (List.mem_cons_of_mem a hc))

theorem dropWhile_head_false {p : Char → Bool} {a : Char} {t : List Char}
    (h : p a = false) : (a :: t).dropWhile p = a :: t := by
  rw [List.dropWhile_cons, if_neg (by simp [h])]

theorem pyStripList_sandwich {w1 w2 inner : List Char}
    (h1 : ∀ c ∈ w1, isPySpace c = true) (h2 : ∀ c ∈ w2, isPySpace c = true)
    (hhead : ∃ a t, inner = a :: t ∧ isPySpace a = false)
    (hlast : ∃ a t, inner.reverse = a :: t ∧ isPySpace a = false) :
    pyStripList (w1 ++ inner ++ w2) = inner := by
  obtain ⟨a, t, hin, ha⟩ := hhead
  obtain ⟨b, rt, hrev, hb⟩ := hlast
  rw [pyStripList]
  have s1 : (w1 ++ inner ++ w2).dropWhile isPySpace = inner ++ w2 := by
    rw [List.append_assoc, dropWhile_append_all h1, hin, List.cons_append,
      dropWhile_head_false ha, ← List.cons_append, ← hin]
  rw [s1]
  have s2 : (inner ++ w2).reverse.dropWhile isPySpace = inner.reverse := by
    rw [List.reverse_append,
      dropWhile_append_all (fun c hc => h2 c (List.mem_reverse.mp hc)),
      hrev, dropWhile_head_false hb, ← hrev]
  rw [s2, List.reverse_reverse]

/-- A successful match starts with a non-space character (`u`) and ends with
a non-space character (a digit or alphanumeric). -/
theorem matchAIR_ends {s : String} {m : AirMatch} (h : matchAIR s = some m) :
    (∃ a t, s.data = a :: t ∧ isPySpace a = false) ∧
      (∃ a t, s.data.reverse = a :: t ∧ isPySpace a = false) := by
  obtain ⟨hrec, _, _, _, ⟨hidne, hidall⟩, hver, hfmt⟩ := matchAirList_sound h
  have hne : s.data ≠ [] := by rw [hrec]; simp
  constructor
  · obtain ⟨a, t, hat⟩ := List.exists_cons_of_ne_nil hne
    have ha : a = 'u' := by
      rw [hat] at hrec
      simpa using congrArg List.head? hrec
    exact ⟨a, t, hat, by rw [ha]; decide⟩
  · have hne2 : s.data.reverse ≠ [] := by simpa using hne
    obtain ⟨b, rt, hbt⟩ := List.exists_cons_of_ne_nil hne2
    refine ⟨b, rt, hbt, ?_⟩
    cases hf : m.format with
    | some f =>
      obtain ⟨hfne, hfall⟩ := hfmt f hf
      obtain ⟨c, ct, hc, hcmem⟩ := reverse_head_mem hfne
      have hhd : s.data.reverse.head? = some c := by
        rw [hrec, hf]
        simp [optPart, List.reverse_append, hc]
      rw [hbt] at hhd
      have hbc : b = c := by simpa using hhd
      rw [hbc]
      exact not_space_of_ge (alnum_ge (hfall c hcmem))
    | none =>
      cases hv : m.version with
      | some v =>
        obtain ⟨hvne, hvall⟩ := hver v hv
        obtain ⟨c, ct, hc, hcmem⟩ := reverse_head_mem hvne
        have hhd : s.data.reverse.head? = some c := by
          rw [hrec, hf, hv]
          simp [optPart, List.reverse_append, hc]
        rw [hbt] at hhd
        have hbc : b = c := by simpa using hhd
        rw [hbc]
        exact not_space_of_ge (digit_ge (hvall c hcmem))
      | none =>
        obtain ⟨c, ct, hc, hcmem⟩ := reverse_head_mem hidne
        have hhd : s.data.reverse.head? = some c := by
          rw [hrec, hf, hv]
          simp [optPart, List.reverse_append, hc]
        rw [hbt] at hhd
        have hbc : b = c := by simpa using hhd
        rw [hbc]
        exact not_space_of_ge (digit_ge (hidall c hcmem))

theorem pyStrip_of_matchAIR {s : String} {m : AirMatch} (h : matchAIR s = some m) :
    pyStrip s = s ∧ s ≠ "" := by
  obtain ⟨hhead, hlast⟩ := matchAIR_ends h
  constructor
  · have := @pyStripList_sandwich [] [] s.data
      (by intro c hc; cases hc) (by intro c hc; cases hc) hhead hlast
    simp only [List.nil_append, List.append_nil] at this
    rw [pyStrip, this]
  · intro h0
    obtain ⟨a, t, hat, _⟩ := hhead
    rw [h0] at hat
    exact List.noConfusion hat

/-! ### Classification claims -/

theorem lower_not_upper {c : Char} (h : isLowerAlnumChar c = true) : isUpperChar c = false := by
  simp only [isLowerAlnumChar, Bool.or_eq_true, Bool.and_eq_true, decide_eq_true_eq] at h
  simp only [isUpperChar, Bool.and_eq_false_iff, decide_eq_false_iff_not]
  omega

theorem digit_not_upper {c : Char} (h : isDigitChar c = true) : isUpperChar c = false := by
  simp only [isDigitChar, Bool.and_eq_true, decide_eq_true_eq] at h
  simp only [isUpperChar, Bool.and_eq_false_iff, decide_eq_false_iff_not]
  omega

/-- Helper: a successful (stripped) match forces `parse_air` to return the
lower-cased `(type, ecosystem)` pair. -/
theorem parse_air_of_match {meta_obj : List (String × PyVal)} {s : String} {m : AirMatch}
    (hl : meta_obj.lookup "copiedMessage" = some (PyVal.str s))
    (hm : matchAIR (pyStrip s) = some m) :
    parse_air meta_obj = some (pyLower m.type, pyLower m.ecosystem) := by
  have hone : ¬ pyStrip s = "" := by
    intro h0
    rw [h0] at hm
    have hnone : matchAIR "" = none := rfl
    rw [hnone] at hm
    exact Option.noConfusion hm
  simp only [parse_air, hl]
  rw [if_neg hone, hm]

/-- C1: for every metadata mapping, `parse_air` returns the lower-cased
`(type, ecosystem)` pair exactly when the `copiedMessage` field is a string
whose stripped value matches the URN grammar; in every other case (field
missing, blank, not a string, or not matching) it returns `none` ("absent")
— and, being a total function, it never raises. -/
theorem claim1_parse_air_classification (meta_obj : List (String × PyVal)) :
    (∀ s m, meta_obj.lookup "copiedMessage" = some (PyVal.str s) →
      matchAIR (pyStrip s) = some m →
      parse_air meta_obj = some (pyLower m.type, pyLower m.ecosystem))
    ∧ (∀ pr, parse_air meta_obj = some pr →
        ∃ s m, meta_obj.lookup "copiedMessage" = some (PyVal.str s) ∧
          pyStrip s ≠ "" ∧ matchAIR (pyStrip s) = some m ∧
          pr = (pyLower m.type, pyLower m.ecosystem)) := by
  constructor
  · intro s m hl hm
    exact parse_air_of_match hl hm
  · intro pr hp
    simp only [parse_air] at hp
    split at hp
    · rename_i cm hl
      split at hp
      · exact Option.noConfusion hp
      · rename_i hblank
        split at hp
        · rename_i m hm
          exact ⟨cm, m, hl, hblank, hm, (Option.some.injEq .. ▸ hp).symm⟩
        · exact Option.noConfusion hp
    all_goals exact Option.noConfusion hp

/-- C7 counterexample: a candidate identifier containing uppercase letters
(in its format suffix) matches the grammar and is not classified "absent",
so not every uppercase letter causes rejection. -/
theorem claim7_counterexample :
    (∃ c ∈ ("urn:air:civitai:lora:civitai:123.SafeTensor" : String).data,
      isUpperChar c = true)
    ∧ parse_air
        [("copiedMessage", PyVal.str "urn:air:civitai:lora:civitai:123.SafeTensor")] =
        some ("lora", "civitai") := by
  constructor
  · exact ⟨'S', by decide, by decide⟩
  · rfl

/-- C7 (amended): matching is case-sensitive for the ecosystem, type and
source segments (lowercase alphanumerics only) and for the id and version
segments (digits only) — an uppercase letter never occurs in any of these
captures; only the optional format suffix admits uppercase letters. -/
theorem claim7_grammar_case_sensitivity {s : String} {m : AirMatch}
    (h : matchAIR s = some m) :
    (∀ c ∈ m.ecosystem.data, isLowerAlnumChar c = true ∧ isUpperChar c = false)
    ∧ (∀ c ∈ m.type.data, isLowerAlnumChar c = true ∧ isUpperChar c = false)
    ∧ (∀ c ∈ m.source.data, isLowerAlnumChar c = true ∧ isUpperChar c = false)
    ∧ (∀ c ∈ m.id.data, isDigitChar c = true ∧ isUpperChar c = false)
    ∧ (∀ v, m.version = some v → ∀ c ∈ v.data, isDigitChar c = true ∧ isUpperChar c = false)
    ∧ (∀ f, m.format = some f → ∀ c ∈ f.data, isAlnumChar c = true) := by
  obtain ⟨_, ⟨_, heco⟩, ⟨_, hty⟩, ⟨_, hsrc⟩, ⟨_, hid⟩, hver, hfmt⟩ := matchAirList_sound h
  refine ⟨fun c hc => ⟨heco c hc, lower_not_upper (heco c hc)⟩,
    fun c hc => ⟨hty c hc, lower_not_upper (hty c hc)⟩,
    fun c hc => ⟨hsrc c hc, lower_not_upper (hsrc c hc)⟩,
    fun c hc => ⟨hid c hc, digit_not_upper (hid c hc)⟩,
    fun v hv c hc => ⟨(hver v hv).2 c hc, digit_not_upper ((hver v hv).2 c hc)⟩,
    fun f hf c hc => (hfmt f hf).2 c hc⟩

/-- C7 witness: the amended theorem applied at a concrete matching URN. -/
theorem claim7_witness :
    (∀ c ∈ ("civitai" : String).data, isLowerAlnumChar c = true ∧ isUpperChar c = false)
    ∧ (∀ c ∈ ("lora" : String).data, isLowerAlnumChar c = true ∧ isUpperChar c = false)
    ∧ (∀ c ∈ ("civitai" : String).data, isLowerAlnumChar c = true ∧ isUpperChar c = false)
    ∧ (∀ c ∈ ("123" : String).data, isDigitChar c = true ∧ isUpperChar c = false)
    ∧ (∀ v, (none : Option String) = some v →
        ∀ c ∈ v.data, isDigitChar c = true ∧ isUpperChar c = false)
    ∧ (∀ f, (none : Option String) = some f → ∀ c ∈ f.data, isAlnumChar c = true) :=
  @claim7_grammar_case_sensitivity "urn:air:civitai:lora:civitai:123"
    ⟨"civitai", "lora", "civitai", "123", none, none⟩ rfl

/-- C9: a valid URN surrounded only by whitespace is classified exactly as
the bare URN — `parse_air` strips leading and trailing whitespace before
matching instead of rejecting the padded string. -/
theorem claim9_parse_air_strips_whitespace (w1 w2 s : String) (m : AirMatch)
    (h1 : ∀ c ∈ w1.data, isPySpace c = true) (h2 : ∀ c ∈ w2.data, isPySpace c = true)
    (hm : matchAIR s = some m) :
    parse_air [("copiedMessage", PyVal.str (w1 ++ s ++ w2))] =
      some (pyLower m.type, pyLower m.ecosystem)
    ∧ parse_air [("copiedMessage", PyVal.str s)] =
      some (pyLower m.type, pyLower m.ecosystem) := by
  obtain ⟨hstrip, hne⟩ := pyStrip_of_matchAIR hm
  obtain ⟨hhead, hlast⟩ := matchAIR_ends hm
  have hdata : (w1 ++ s ++ w2).data = w1.data ++ s.data ++ w2.data := by
    rw [String.data_append, String.data_append]
  have hstrip2 : pyStrip (w1 ++ s ++ w2) = s := by
    rw [pyStrip, hdata]
    rw [pyStripList_sandwich h1 h2 hhead hlast]
  constructor
  · exact parse_air_of_match (by rfl) (by rw [hstrip2]; exact hm)
  · exact parse_air_of_match (by rfl) (by rw [hstrip]; exact hm)

/-- C9 witness: the theorem applied at a concrete padded URN. -/
theorem claim9_witness :
    parse_air [("copiedMessage", PyVal.str ("  " ++ "urn:air:civitai:lora:civitai:123" ++ " "))] =
      some (pyLower "lora", pyLower "civitai")
    ∧ parse_air [("copiedMessage", PyVal.str "urn:air:civitai:lora:civitai:123")] =
      some (pyLower "lora", pyLower "civitai") :=
  claim9_parse_air_strips_whitespace "  " " " "urn:air:civitai:lora:civitai:123"
    ⟨"civitai", "lora", "civitai", "123", none, none⟩
    (by decide) (by decide) rfl

/-! ### Deduplication claims -/

theorem dedupSpec_cons (u : String) (rest : List String) :
    dedupSpec (u :: rest) = u :: dedupSpec (rest.filter (fun v => !decide (v = u))) := by
  simp [dedupSpec]

theorem dedupAux_eq_spec (seen : List String) (l : List String) :
    dedupAux seen l = dedupSpec (l.filter (fun v => !decide (v ∈ seen))) := by
  induction l generalizing seen with
  | nil => simp [dedupAux, dedupSpec]
  | cons u rest ih =>
    by_cases hu : u ∈ seen
    · have hcond : (!decide (u ∈ seen)) = false := by simp [hu]
      rw [dedupAux, if_pos hu, List.filter_cons, hcond, if_neg (by simp)]
      exact ih seen
    · have hcond : (!decide (u ∈ seen)) = true := by simp [hu]
      rw [dedupAux, if_neg hu, List.filter_cons, hcond, if_pos rfl]
      rw [dedupSpec_cons]
      congr 1
      rw [ih (u :: seen), List.filter_filter]
      congr 1
      apply List.filter_congr
      intro v _
      by_cases h1 : v = u <;> by_cases h2 : v ∈ seen <;>
        simp [h1, h2, List.mem_cons]

theorem dedup_eq_dedupSpec (l : List String) : dedup l = dedupSpec l := by
  rw [dedup, dedupAux_eq_spec]
  congr 1
  simp

theorem dedupAux_sublist (seen l : List String) : List.Sublist (dedupAux seen l) l := by
  induction l generalizing seen with
  | nil => simp [dedupAux]
  | cons u rest ih =>
    rw [dedupAux]
    by_cases hu : u ∈ seen
    · rw [if_pos hu]
      exact (ih seen).cons u
    · rw [if_neg hu]
      exact (ih (u :: seen)).cons₂ u

/-- C8: `dedup` keeps the first occurrence of each exact string, drops every
later repeat and preserves the relative order of the survivors (it equals
the specification recursion `dedupSpec` and is a sublist of its input); in
particular `dedup [a,b,a,c,b] = [a,b,c]` for distinct `a`, `b`, `c`. -/
theorem claim8_dedup_first_occurrence (l : List String) :
    dedup l = dedupSpec l ∧ List.Sublist (dedup l) l ∧
      ∀ a b c : String, a ≠ b → a ≠ c → b ≠ c → dedup [a, b, a, c, b] = [a, b, c] := by
  refine ⟨dedup_eq_dedupSpec l, dedupAux_sublist [] l, ?_⟩
  intro a b c hab hac hbc
  simp [dedup, dedupAux, List.mem_cons, hab, hac, hbc,
    Ne.symm hab, Ne.symm hac, Ne.symm hbc]

/-! ### Uniquification claims -/

theorem joinPath_inj_name {d n1 n2 : String} (h : joinPath d n1 = joinPath d n2) :
    n1 = n2 := by
  rw [joinPath, joinPath] at h
  split at h
  · exact h
  · have hdata := congrArg String.data h
    rw [String.data_append, String.data_append, String.data_append,
      String.data_append] at hdata
    exact String.ext (List.append_cancel_left hdata)

theorem candName_two_ne_three (p : String) : candName p 2 ≠ candName p 3 := by
  intro h
  rw [candName, candName] at h
  have hname := joinPath_inj_name h
  have hdata := congrArg String.data hname
  simp only [String.data_append] at hdata
  have h23 := List.append_cancel_left (List.append_cancel_right hdata)
  have e2 : (Nat.repr 2).data = ['2'] := rfl
  have e3 : (Nat.repr 3).data = ['3'] := rfl
  rw [e2, e3] at h23
  exact absurd h23 (by decide)

/-- C10: for every finite set of existing entries, `uniquify_path` (which is
total, hence terminating) returns a path not in that set, and that path is
either the input itself or a candidate `stem__i.ext` with `i ≥ 2` — a `__1`
suffix is never produced. -/
theorem claim10_uniquify_fresh (fs : List String) (p : String) :
    uniquify_path fs p ∉ fs ∧
      (uniquify_path fs p = p ∨ ∃ i, 2 ≤ i ∧ uniquify_path fs p = candName p i) := by
  rw [uniquify_path]
  by_cases hp : p ∈ fs
  · rw [if_pos hp]
    exact ⟨Nat.find_spec (cand_exists fs p),
      Or.inr ⟨2 + Nat.find (cand_exists fs p), by omega, rfl⟩⟩
  · rw [if_neg hp]
    exact ⟨hp, Or.inl rfl⟩

/-- C5: resolving the same desired name three times in sequence (each
resolved path becoming an existing file before the next call) yields the
original name, then `stem__2.ext`, then `stem__3.ext`, all pairwise
distinct. -/
theorem claim5_uniquify_sequence (fs : List String) (p : String)
    (h0 : p ∉ fs) (h2 : candName p 2 ∉ fs) (h3 : candName p 3 ∉ fs) :
    uniquify_path fs p = p
    ∧ uniquify_path (p :: fs) p = candName p 2
    ∧ uniquify_path (candName p 2 :: p :: fs) p = candName p 3
    ∧ p ≠ candName p 2 ∧ candName p 2 ≠ candName p 3 ∧ p ≠ candName p 3 := by
  have hne2p : candName p 2 ≠ p := candName_ne_self p 2
  have hne3p : candName p 3 ≠ p := candName_ne_self p 3
  have hne23 : candName p 2 ≠ candName p 3 := candName_two_ne_three p
  refine ⟨by rw [uniquify_path, if_neg h0], ?_, ?_, Ne.symm hne2p, hne23, Ne.symm hne3p⟩
  · rw [uniquify_path, if_pos (List.mem_cons_self p fs)]
    have hfind : Nat.find (cand_exists (p :: fs) p) = 0 := by
      rw [Nat.find_eq_zero]
      simp only [List.mem_cons, not_or]
      exact ⟨hne2p, h2⟩
    rw [hfind]
  · rw [uniquify_path, if_pos (List.mem_cons_of_mem _ (List.mem_cons_self p fs))]
    have hfind : Nat.find (cand_exists (candName p 2 :: p :: fs) p) = 1 := by
      rw [Nat.find_eq_iff]
      constructor
      · simp only [List.mem_cons, not_or]
        exact ⟨Ne.symm hne23, hne3p, h3⟩
      · intro k hk
        interval_cases k
        exact not_not_intro (List.mem_cons_self _ _)
    rw [hfind]

/-- C5 witness: the theorem applied at a concrete fresh directory. -/
theorem claim5_witness :
    uniquify_path [] "root/default/a.bin" = "root/default/a.bin"
    ∧ uniquify_path ["root/default/a.bin"] "root/default/a.bin" =
        candName "root/default/a.bin" 2
    ∧ uniquify_path
        [candName "root/default/a.bin" 2, "root/default/a.bin"] "root/default/a.bin" =
        candName "root/default/a.bin" 3
    ∧ "root/default/a.bin" ≠ candName "root/default/a.bin" 2
    ∧ candName "root/default/a.bin" 2 ≠ candName "root/default/a.bin" 3
    ∧ "root/default/a.bin" ≠ candName "root/default/a.bin" 3 :=
  claim5_uniquify_sequence [] "root/default/a.bin" (by decide) (by decide) (by decide)

/-! ### Per-URL isolation and routing claims -/

theorem processUrl_probe_error {env : Env} {air : Option (String × String)}
    {base : String} {st : RunState} {u e : String}
    (h : env.probeFilename u = Except.error e) :
    processUrl env air base st u = ([], st) := by
  simp [processUrl, h]

theorem processUrl_download_error {env : Env} {air : Option (String × String)}
    {base : String} {st : RunState} {u name e : String}
    (hp : env.probeFilename u = Except.ok name)
    (hd : env.downloadResult u = Except.error e) :
    processUrl env air base st u = ([], st) := by
  simp [processUrl, hp, hd]

/-- C3: per-URL failures are isolated.  A URL whose filename probe or whose
download fails contributes nothing: the loop state is unchanged and
processing continues with the remaining URLs exactly as if the URL were
absent (the loop is total, so the run never aborts); and the records
produced by the loop are exactly the URLs whose probe and fetch both
succeeded, in order — a record exists only after a successful fetch. -/
theorem claim3_per_url_isolation (env : Env) (air : Option (String × String))
    (base : String) :
    (∀ st u rest e, env.probeFilename u = Except.error e →
      processUrls env air base (u :: rest) st = processUrls env air base rest st)
    ∧ (∀ st u rest name e, env.probeFilename u = Except.ok name →
        env.downloadResult u = Except.error e →
        processUrls env air base (u :: rest) st = processUrls env air base rest st)
    ∧ ∀ urls st, ((processUrls env air base urls st).1).map (fun r => r.url) =
        urls.filter (fun u => urlOk env u) := by
  refine ⟨?_, ?_, ?_⟩
  · intro st u rest e hp
    rw [processUrls, processUrl_probe_error hp]
    simp
  · intro st u rest name e hp hd
    rw [processUrls, processUrl_download_error hp hd]
    simp
  · intro urls
    induction urls with
    | nil => intro st; simp [processUrls]
    | cons u rest ih =>
      intro st
      cases hp : env.probeFilename u with
      | error e =>
        rw [processUrls, processUrl_probe_error hp]
        simp [List.filter_cons, urlOk, hp, Except.isOk, Except.toBool, ih]
      | ok name =>
        cases hd : env.downloadResult u with
        | error e =>
          rw [processUrls, processUrl_download_error hp hd]
          simp [List.filter_cons, urlOk, hp, hd, Except.isOk, Except.toBool, ih]
        | ok size =>
          rw [processUrls]
          simp [processUrl, hp, hd, List.filter_cons, urlOk, Except.isOk, Except.toBool, ih]

/-- C4: when the classification is `(type, ecosystem)` the destination
directory is `root/<type>` and the desired filename is the probed name
prefixed with `<ecosystem>_`; when the classification is absent the
directory is `root/default` and the probed name is used unmodified (in both
cases the desired path is then uniquified against the existing files). -/
theorem claim4_routing (env : Env) (root base : String) (st : RunState)
    (url name : String) (size : Nat) (ty eco : String)
    (hp : env.probeFilename url = Except.ok name)
    (hd : env.downloadResult url = Except.ok size) :
    baseDir root (some (ty, eco)) = root ++ "/" ++ ty
    ∧ baseDir root none = root ++ "/default"
    ∧ processUrl env (some (ty, eco)) base st url =
        ([⟨url, uniquify_path st.fs (base ++ "/" ++ (eco ++ "_" ++ name)), size⟩],
          ⟨uniquify_path st.fs (base ++ "/" ++ (eco ++ "_" ++ name)) :: st.fs, true⟩)
    ∧ processUrl env none base st url =
        ([⟨url, uniquify_path st.fs (base ++ "/" ++ name), size⟩],
          ⟨uniquify_path st.fs (base ++ "/" ++ name) :: st.fs, true⟩) := by
  refine ⟨rfl, rfl, ?_, ?_⟩ <;> simp [processUrl, hp, hd]

/-- Environment for the concrete C4 witness run. -/
def c4env : Env :=
  ⟨fun _ => Except.ok "a.bin", fun _ => Except.ok 7, fun _ => true, fun _ => true⟩

/-- C4 witness: the routing theorem at a concrete URL. -/
theorem claim4_witness :
    baseDir "root" (some ("lora", "civitai")) = "root" ++ "/" ++ "lora"
    ∧ baseDir "root" none = "root" ++ "/default"
    ∧ processUrl c4env (some ("lora", "civitai")) "root/lora" ⟨[], false⟩ "http://x" =
        ([⟨"http://x", uniquify_path [] ("root/lora" ++ "/" ++ ("civitai" ++ "_" ++ "a.bin")), 7⟩],
          ⟨uniquify_path [] ("root/lora" ++ "/" ++ ("civitai" ++ "_" ++ "a.bin")) :: [], true⟩)
    ∧ processUrl c4env none "root/lora" ⟨[], false⟩ "http://x" =
        ([⟨"http://x", uniquify_path [] ("root/lora" ++ "/" ++ "a.bin"), 7⟩],
          ⟨uniquify_path [] ("root/lora" ++ "/" ++ "a.bin") :: [], true⟩) :=
  claim4_routing c4env "root" "root/lora" ⟨[], false⟩ "http://x" "a.bin" 7 "lora" "civitai"
    rfl rfl

/-! ### Persistence claims -/

theorem processUrls_changed (env : Env) (air : Option (String × String)) (base : String) :
    ∀ (urls : List String) (st : RunState),
      ((processUrls env air base urls st).2.changed = true ↔
        st.changed = true ∨ (processUrls env air base urls st).1 ≠ []) := by
  intro urls
  induction urls with
  | nil => intro st; simp [processUrls]
  | cons u rest ih =>
    intro st
    cases hp : env.probeFilename u with
    | error e =>
      rw [processUrls, processUrl_probe_error hp]
      simp [ih]
    | ok name =>
      cases hd : env.downloadResult u with
      | error e =>
        rw [processUrls, processUrl_download_error hp hd]
        simp [ih]
      | ok size =>
        rw [processUrls]
        simp [processUrl, hp, hd, ih]

theorem processItem_spec (env : Env) (root : String) (st : RunState) (it : Item) :
    ∀ it2 st2, processItem env root st it = Except.ok (it2, st2) →
      it2.meta = it.meta ∧
      ∃ recs, it2.downloads = it.downloads ++ recs ∧
        (st2.changed = true ↔ st.changed = true ∨ recs ≠ []) := by
  intro it2 st2 h
  rw [processItem] at h
  split at h
  · exact Except.noConfusion h
  · have hpair := Except.ok.injEq .. ▸ h
    obtain ⟨h1, h2⟩ := Prod.mk.injEq .. ▸ hpair
    refine ⟨by rw [← h1], (processUrls env (parse_air it.meta)
      (baseDir root (parse_air it.meta)) (dedup (getLinks it.meta)) st).1, by rw [← h1], ?_⟩
    rw [← h2]
    exact processUrls_changed env _ _ _ st

theorem processItems_spec (env : Env) (root : String) :
    ∀ (its : List Item) (st : RunState) (its2 : List Item) (st2 : RunState),
      processItems env root its st = Except.ok (its2, st2) →
        totalDownloads its ≤ totalDownloads its2 ∧
        (st2.changed = true ↔ st.changed = true ∨ totalDownloads its < totalDownloads its2) := by
  intro its
  induction its with
  | nil =>
    intro st its2 st2 h
    rw [processItems] at h
    have hpair := Except.ok.injEq .. ▸ h
    obtain ⟨h1, h2⟩ := Prod.mk.injEq .. ▸ hpair
    rw [← h1, ← h2]
    simp [totalDownloads]
  | cons it rest ih =>
    intro st its2 st2 h
    rw [processItems] at h
    split at h
    · exact Except.noConfusion h
    · rename_i it2 st2' hitem
      split at h
      · exact Except.noConfusion h
      · rename_i rest2 st3 hrest
        have hpair := Except.ok.injEq .. ▸ h
        obtain ⟨h1, h2⟩ := Prod.mk.injEq .. ▸ hpair
        obtain ⟨hle, hiff⟩ := ih st2' rest2 st3 hrest
        obtain ⟨hmeta, recs, hdl, hch⟩ := processItem_spec env root st it it2 st2' hitem
        have hlen : it2.downloads.length = it.downloads.length + recs.length := by
          rw [hdl]; simp
        have hrne : (recs ≠ []) ↔ 0 < recs.length := by
          rw [List.length_pos]
        rw [← h1, ← h2]
        simp only [totalDownloads, List.map_cons, List.sum_cons] at *
        constructor
        · omega
        · rw [hiff, hch, hrne]
          constructor
          · rintro ((h | h) | h)
            · left; exact h
            · right; omega
            · right; omega
          · rintro (h | h)
            · left; left; exact h
            · by_cases hr : 0 < recs.length
              · left; right; exact hr
              · right; omega

/-- C2 (amended): the metadata document is rewritten exactly when at least
one `DownloadRecord` was created during the run; the rewrite writes a
temporary sibling (`p.with_suffix(".tmp")`) and renames it over the
original, at most once per run, and — provided that temporary path differs
from the original, i.e. the metadata file is not itself named `*.tmp` —
after any prefix of the save the on-disk document is either the untouched
original or the fully updated one; when `changed` is false nothing is
written at all. -/
theorem claim2_save_if_changed (env : Env) (metaPath root : String) (items : List Item)
    (fs0 : List String) (items2 : List Item) (st : RunState) (ev : List SaveEvent)
    (hrun : runMain env metaPath root items fs0 = Except.ok (items2, st, ev))
    (htmp : with_suffix metaPath ".tmp" ≠ metaPath) :
    (st.changed = true ↔ totalDownloads items < totalDownloads items2)
    ∧ (st.changed = false → ev = [])
    ∧ ev = (if st.changed then
        [SaveEvent.writeStart (with_suffix metaPath ".tmp"),
         SaveEvent.writeEnd (with_suffix metaPath ".tmp") items2,
         SaveEvent.rename (with_suffix metaPath ".tmp") metaPath] else [])
    ∧ ∀ (disk : String → FileState) (k : Nat),
        applyEvents disk (ev.take k) metaPath = disk metaPath ∨
        applyEvents disk (ev.take k) metaPath = FileState.content items2 := by
  rw [runMain] at hrun
  split at hrun
  · exact Except.noConfusion hrun
  · split at hrun
    · exact Except.noConfusion hrun
    · rename_i its2 st' hproc
      have hpair := Except.ok.injEq .. ▸ hrun
      obtain ⟨h1, hpair2⟩ := Prod.mk.injEq .. ▸ hpair
      obtain ⟨h2, h3⟩ := Prod.mk.injEq .. ▸ hpair2
      obtain ⟨_, hiff⟩ := processItems_spec env root items ⟨fs0, false⟩ its2 st' hproc
      have hne : ¬ (metaPath = with_suffix metaPath ".tmp") := fun h => htmp h.symm
      rw [← h1, ← h2, ← h3]
      refine ⟨by rw [hiff]; simp, ?_, ?_, ?_⟩
      · intro hch
        rw [saveEvents, if_neg (by simp [hch])]
      · by_cases hch : st'.changed = true
        · rw [saveEvents, if_pos hch]
        · rw [saveEvents, if_neg hch]
      · intro disk k
        rw [saveEvents]
        by_cases hch : st'.changed = true
        · rw [if_pos hch]
          match k with
          | 0 => left; rfl
          | 1 =>
            left
            simp [applyEvents, applyEvent, List.take, hne]
          | 2 =>
            left
            simp [applyEvents, applyEvent, List.take, hne]
          | (n + 3) =>
            right
            have htake : List.take (n + 3)
                [SaveEvent.writeStart (with_suffix metaPath ".tmp"),
                 SaveEvent.writeEnd (with_suffix metaPath ".tmp") its2,
                 SaveEvent.rename (with_suffix metaPath ".tmp") metaPath] =
                [SaveEvent.writeStart (with_suffix metaPath ".tmp"),
                 SaveEvent.writeEnd (with_suffix metaPath ".tmp") its2,
                 SaveEvent.rename (with_suffix metaPath ".tmp") metaPath] := by
              apply List.take_of_length_le
              simp
            rw [htake]
            simp [applyEvents, applyEvent, hne]
        · rw [if_neg hch]
          left
          simp [applyEvents]

/-- Environment for the concrete C2 runs: every probe and download succeeds. -/
def c2env : Env :=
  ⟨fun _ => Except.ok "a.bin", fun _ => Except.ok 10, fun _ => true, fun _ => true⟩

/-- A one-link unclassified item, as loaded. -/
def c2item : Item := ⟨[("downloadlinks", PyVal.strList ["http://x/a.bin"])], []⟩

/-- The same item after its link was downloaded. -/
def c2item2 : Item :=
  ⟨[("downloadlinks", PyVal.strList ["http://x/a.bin"])],
   [⟨"http://x/a.bin", "root/default/a.bin", 10⟩]⟩

/-- C2 counterexample: when the metadata document is itself named `*.tmp`,
`p.with_suffix(".tmp")` equals the original path, so the "temporary" file is
the original and a crash after the write begins (prefix of length 1 of the
save events) leaves the on-disk document partial — neither the untouched
original nor the fully-updated version, falsifying the unconditional
atomicity reading of the claim. -/
theorem claim2_counterexample :
    runMain c2env "m.tmp" "root" [c2item] [] =
      Except.ok ([c2item2], ⟨["root/default/a.bin"], true⟩,
        [SaveEvent.writeStart "m.tmp", SaveEvent.writeEnd "m.tmp" [c2item2],
         SaveEvent.rename "m.tmp" "m.tmp"])
    ∧ with_suffix "m.tmp" ".tmp" = "m.tmp"
    ∧ applyEvents
        (fun q => if q = "m.tmp" then FileState.content [c2item] else FileState.absent)
        (List.take 1
          [SaveEvent.writeStart "m.tmp", SaveEvent.writeEnd "m.tmp" [c2item2],
           SaveEvent.rename "m.tmp" "m.tmp"]) "m.tmp" = FileState.partialWrite
    ∧ FileState.partialWrite ≠ FileState.content [c2item]
    ∧ FileState.partialWrite ≠ FileState.content [c2item2] := by
  refine ⟨rfl, rfl, rfl, ?_, ?_⟩ <;> intro h <;> exact FileState.noConfusion h

/-- C2 witness: the amended theorem applied to a concrete successful run on
a normally-named document. -/
theorem claim2_witness :
    ((⟨["root/default/a.bin"], true⟩ : RunState).changed = true ↔
      totalDownloads [c2item] < totalDownloads [c2item2])
    ∧ ((⟨["root/default/a.bin"], true⟩ : RunState).changed = false →
        [SaveEvent.writeStart (with_suffix "meta.json" ".tmp"),
         SaveEvent.writeEnd (with_suffix "meta.json" ".tmp") [c2item2],
         SaveEvent.rename (with_suffix "meta.json" ".tmp") "meta.json"] = [])
    ∧ [SaveEvent.writeStart (with_suffix "meta.json" ".tmp"),
       SaveEvent.writeEnd (with_suffix "meta.json" ".tmp") [c2item2],
       SaveEvent.rename (with_suffix "meta.json" ".tmp") "meta.json"] =
      (if (⟨["root/default/a.bin"], true⟩ : RunState).changed then
        [SaveEvent.writeStart (with_suffix "meta.json" ".tmp"),
         SaveEvent.writeEnd (with_suffix "meta.json" ".tmp") [c2item2],
         SaveEvent.rename (with_suffix "meta.json" ".tmp") "meta.json"] else [])
    ∧ ∀ (disk : String → FileState) (k : Nat),
        applyEvents disk (List.take k
          [SaveEvent.writeStart (with_suffix "meta.json" ".tmp"),
           SaveEvent.writeEnd (with_suffix "meta.json" ".tmp") [c2item2],
           SaveEvent.rename (with_suffix "meta.json" ".tmp") "meta.json"]) "meta.json" =
          disk "meta.json" ∨
        applyEvents disk (List.take k
          [SaveEvent.writeStart (with_suffix "meta.json" ".tmp"),
           SaveEvent.writeEnd (with_suffix "meta.json" ".tmp") [c2item2],
           SaveEvent.rename (with_suffix "meta.json" ".tmp") "meta.json"]) "meta.json" =
          FileState.content [c2item2] :=
  claim2_save_if_changed c2env "meta.json" "root" [c2item] [] [c2item2]
    ⟨["root/default/a.bin"], true⟩
    [SaveEvent.writeStart (with_suffix "meta.json" ".tmp"),
     SaveEvent.writeEnd (with_suffix "meta.json" ".tmp") [c2item2],
     SaveEvent.rename (with_suffix "meta.json" ".tmp") "meta.json"]
    rfl (by decide)

/-- Environment for the concrete C6 run: the network always succeeds but the
`root/default` directory is not writable. -/
def c6env : Env :=
  ⟨fun _ => Except.ok "a.bin", fun _ => Except.ok 10, fun _ => true,
   fun p => !(p == "root/default")⟩

/-- An unclassified item (no `copiedMessage`), routed to `root/default`. -/
def c6item : Item := ⟨[], []⟩

/-- A second, healthy item whose link would download fine. -/
def c6good : Item := ⟨[("downloadlinks", PyVal.strList ["http://x/a.bin"])], []⟩

/-- C6 counterexample: a writability failure on the first asset's base
directory aborts the whole run with `die` — the second asset, whose probe
and download would both succeed, is never processed, falsifying "that asset
is skipped and the run continues". -/
theorem claim6_counterexample :
    runMain c6env "meta.json" "root" [c6item, c6good] [] =
      Except.error ("No write permission: " ++ "root/default")
    ∧ urlOk c6env "http://x/a.bin" = true :=
  ⟨rfl, rfl⟩

/-- C6 (amended): a directory-creation or writability failure on an asset's
base directory is fatal, not recoverable: `ensure_writable_dir` calls `die`
(or lets the `mkdir` exception escape), so the run aborts with that error
and no remaining asset is processed. -/
theorem claim6_dir_failure_fatal (env : Env) (metaPath root : String) (it : Item)
    (items : List Item) (fs0 : List String) (e : String)
    (hroot : ensure_writable_dir env root = Except.ok ())
    (hdir : ensure_writable_dir env (baseDir root (parse_air it.meta)) = Except.error e) :
    runMain env metaPath root (it :: items) fs0 = Except.error e := by
  simp only [runMain, hroot, processItems, processItem, hdir]

/-- C6 witness: the amended theorem applied to the concrete failing run. -/
theorem claim6_witness :
    runMain c6env "meta.json" "root" [c6item] [] =
      Except.error ("No write permission: " ++ "root/default") :=
  claim6_dir_failure_fatal c6env "meta.json" "root" c6item [] []
    ("No write permission: " ++ "root/default") rfl rfl
